import Mathlib

/-!
Verification of `src/ir/drop.h` (Binaryen's drop-insertion utility).

The file embeds the two entry points of the header,
`getDroppedChildrenAndAppend` and `getDroppedUnconditionalChildrenAndAppend`,
over a shallow model of the expression tree.  The external collaborators of
the header (the effect analyzers, the child iterator, the branch-target query
and the node builder) are not part of the source core; they are modelled from
the specification at their interface, as annotations carried by every node.
-/

namespace DropIR

/-- Result-type classification of an expression node: concrete (produces a
usable value), none (produces no value), or unreachable (control never
returns normally). -/
inductive Ty : Type where
  | concrete : Ty
  | none : Ty
  | unreachable : Ty
deriving DecidableEq, Repr

/-- Modelled from the spec: `Type::isConcrete()` — true exactly when the type
produces a usable value, i.e. it is neither none nor unreachable. -/
def Ty.isConcrete : Ty → Bool
  | Ty.concrete => true
  | _ => false

/-- Node kinds relevant to the core: conditional (`If`), exception-dispatch
(`Try`), value-pop (`Pop`), sequencing block, drop wrapper, and plain
computation. -/
inductive Kind : Type where
  | ifK : Kind
  | tryK : Kind
  | popK : Kind
  | blockK : Kind
  | dropK : Kind
  | plain : Kind
deriving DecidableEq, Repr

/-- Modelled from the spec: a side-effect verdict is a boolean "has side
effects that cannot be silently discarded" split into its non-trap component
`other` plus an independent "may trap" flag `trap` (the source clears
`effects.trap` separately before testing unremovability). -/
structure Effects : Type where
  other : Bool
  trap : Bool
deriving DecidableEq, Repr

/-- Modelled from the spec: `hasUnremovableSideEffects()` holds when the
verdict records an unremovable non-trap side effect or a possible trap. -/
def Effects.hasUnremovableSideEffects (e : Effects) : Bool :=
  e.other || e.trap

/-- The empty verdict: no unremovable effects, no trap. -/
def noEffects : Effects := ⟨false, false⟩

/-- Union of two side-effect verdicts, componentwise. -/
def Effects.union (a b : Effects) : Effects :=
  ⟨a.other || b.other, a.trap || b.trap⟩

/-- An expression node: a kind tag, a result type, the Effect Oracle's
shallow verdict for the node itself (modelled from the spec as an annotation
on the node), the optional branch-target name the node declares, an identity
used to track observable effect events, and the direct children in
left-to-right evaluation order. -/
inductive Expr : Type where
  | mk : Kind → Ty → Effects → Option Nat → Nat → List Expr → Expr

/-- The kind tag of a node. -/
def Expr.kind : Expr → Kind
  | Expr.mk k _ _ _ _ _ => k

/-- The result type of a node. -/
def Expr.ty : Expr → Ty
  | Expr.mk _ t _ _ _ _ => t

/-- The shallow effect annotation of a node. -/
def Expr.eff : Expr → Effects
  | Expr.mk _ _ e _ _ _ => e

/-- The branch-target name declared by the node, if any. -/
def Expr.definedName : Expr → Option Nat
  | Expr.mk _ _ _ n _ _ => n

/-- The identity of the node, used to name its observable effect events. -/
def Expr.ident : Expr → Nat
  | Expr.mk _ _ _ _ i _ => i

/-- The direct children of a node, in evaluation order. -/
def Expr.children : Expr → List Expr
  | Expr.mk _ _ _ _ _ cs => cs

/-- Modelled from the spec: the Child Enumerator (`ChildIterator`) exposes
the direct children of a node in left-to-right evaluation order. -/
def ChildIterator (e : Expr) : List Expr := e.children

/-- Modelled from the spec: `BranchUtils::getDefinedName` reports the name a
node declares that other nodes in the tree may jump to, if any. -/
def getDefinedName (e : Expr) : Option Nat := e.definedName

/-- `curr->is<If>()` from the source. -/
def Expr.isIf (e : Expr) : Bool := e.kind = Kind.ifK

/-- `curr->is<Try>()` from the source. -/
def Expr.isTry (e : Expr) : Bool := e.kind = Kind.tryK

/-- `curr->is<Pop>()` from the source. -/
def Expr.isPop (e : Expr) : Bool := e.kind = Kind.popK

/-- Modelled from the spec: `ShallowEffectAnalyzer` answers the side-effect
verdict of a single node alone, ignoring its children. -/
def ShallowEffectAnalyzer (e : Expr) : Effects := e.eff

mutual

/-- Modelled from the spec: the deep `EffectAnalyzer` computes the
side-effect profile of an entire subtree, combining the node and all
descendants. -/
def EffectAnalyzer : Expr → Effects
  | Expr.mk _ _ e _ _ cs => Effects.union e (effectsOfList cs)

/-- Combined side-effect verdict of a list of subtrees. -/
def effectsOfList : List Expr → Effects
  | [] => noEffects
  | c :: cs => Effects.union (EffectAnalyzer c) (effectsOfList cs)

end

/-- Modelled from the spec: `Builder::makeDrop` allocates a drop wrapper
around a value; as in the source builder the wrapper itself carries no
effects and declares no name, and its type is none unless the value is
unreachable. -/
def makeDrop (value : Expr) : Expr :=
  Expr.mk Kind.dropK
    (if value.ty = Ty.unreachable then Ty.unreachable else Ty.none)
    noEffects Option.none 0 [value]

/-- Modelled from the spec: `Builder::makeBlock` allocates a sequencing
container holding the given expressions in order; the block itself carries
no effects and declares no name, and takes the type of its final element. -/
def makeBlock (contents : List Expr) : Expr :=
  Expr.mk Kind.blockK
    ((contents.getLast?.map Expr.ty).getD Ty.none)
    noEffects Option.none 0 contents

/-- Modelled from the spec: `Builder::makeSequence` allocates a two-element
ordered sequence, i.e. a block of exactly two expressions. -/
def makeSequence (left right : Expr) : Expr := makeBlock [left, right]

/-- The loop body of `getDroppedChildrenAndAppend` (source lines 42-53): for
each child in order, skip it when its deep verdict has no unremovable side
effects, otherwise retain it, wrapped in a drop when its type is concrete. -/
def droppedContents : List Expr → List Expr
  | [] => []
  | child :: rest =>
    if (EffectAnalyzer child).hasUnremovableSideEffects = false then
      droppedContents rest
    else if child.ty.isConcrete then
      makeDrop child :: droppedContents rest
    else
      child :: droppedContents rest

/-- `getDroppedChildrenAndAppend` from the source (lines 36-59): collect the
children that must be kept for their effects, append `last`, and return the
single element directly when only one remains, otherwise a new block. -/
def getDroppedChildrenAndAppend (curr last : Expr) : Expr :=
  let contents := droppedContents (ChildIterator curr) ++ [last]
  if contents.length = 1 then contents.headD last else makeBlock contents

/-- The trap adjustment of source lines 114-117: when the appended
expression's type is unreachable, clear the may-trap component of the
verdict before testing unremovability. -/
def adjustEffects (last : Expr) (e : Effects) : Effects :=
  if last.ty = Ty.unreachable then ⟨e.other, false⟩ else e

/-- `getDroppedUnconditionalChildrenAndAppend` from the source (lines
101-133): check the node's shallow effects (with the trap adjustment); if
the node has unremovable effects, is an if, try or pop, or declares a branch
target, keep it whole as `(drop curr) ; last`; otherwise descend into its
children via `getDroppedChildrenAndAppend`. -/
def getDroppedUnconditionalChildrenAndAppend (curr last : Expr) : Expr :=
  let effects := adjustEffects last (ShallowEffectAnalyzer curr)
  if effects.hasUnremovableSideEffects || curr.isIf || curr.isTry ||
      curr.isPop || (getDefinedName curr).isSome then
    makeSequence (makeDrop curr) last
  else
    getDroppedChildrenAndAppend curr last

/-- Variant of `getDroppedUnconditionalChildrenAndAppend` written from the
spec's words for the shallow-vs-deep comparison: identical except that the
deep (whole-subtree) effect verdict of the node is tested instead of the
shallow one. -/
def getDroppedUnconditionalChildrenAndAppendDeepCheck (curr last : Expr) : Expr :=
  let effects := adjustEffects last (EffectAnalyzer curr)
  if effects.hasUnremovableSideEffects || curr.isIf || curr.isTry ||
      curr.isPop || (getDefinedName curr).isSome then
    makeSequence (makeDrop curr) last
  else
    getDroppedChildrenAndAppend curr last

mutual

/-- Observable non-trap side-effect trace of executing an expression:
children run first in left-to-right order, then the node performs its own
unremovable side effect (named by its identity), if it has one. -/
def obsSide : Expr → List Nat
  | Expr.mk _ _ e _ i cs => obsSideList cs ++ (if e.other then [i] else [])

/-- Observable non-trap side-effect trace of a list of expressions run in
order. -/
def obsSideList : List Expr → List Nat
  | [] => []
  | c :: cs => obsSide c ++ obsSideList cs

end

mutual

/-- Observable trace of executing an expression counting both unremovable
non-trap side effects and possible traps as events. -/
def obsFull : Expr → List Nat
  | Expr.mk _ _ e _ i cs =>
    obsFullList cs ++ (if e.other || e.trap then [i] else [])

/-- Observable full trace of a list of expressions run in order. -/
def obsFullList : List Expr → List Nat
  | [] => []
  | c :: cs => obsFull c ++ obsFullList cs

end

mutual

/-- Structural drop invariant (the spec's Invariant I1) checked over a whole
tree: every drop wrapper's contents have concrete type. -/
def wellDropped : Expr → Bool
  | Expr.mk k _ _ _ _ cs =>
    (if k = Kind.dropK then cs.all (fun c => c.ty.isConcrete) else true) &&
      wellDroppedList cs

/-- The drop invariant checked over a list of trees. -/
def wellDroppedList : List Expr → Bool
  | [] => true
  | c :: cs => wellDropped c && wellDroppedList cs

end

/-- The children of the input that `getDroppedChildrenAndAppend` retains for
their effects, in order, before any drop wrapping. -/
def keptChildren (curr : Expr) : List Expr :=
  (ChildIterator curr).filter
    (fun c => (EffectAnalyzer c).hasUnremovableSideEffects)

/-- How `getDroppedChildrenAndAppend` packages one retained child: wrapped in
a drop when its type is concrete, as-is otherwise. -/
def wrapChild (c : Expr) : Expr :=
  if c.ty.isConcrete then makeDrop c else c

/-- A pure, concrete-typed constant leaf used in concrete checks. -/
def pureConst (i : Nat) : Expr :=
  Expr.mk Kind.plain Ty.concrete noEffects Option.none i []

/-- A concrete-typed call-like leaf with an unremovable non-trap side
effect. -/
def sideCall (i : Nat) : Expr :=
  Expr.mk Kind.plain Ty.concrete ⟨true, false⟩ Option.none i []

/-- A concrete-typed leaf whose only effect is a possible trap. -/
def trapNode (i : Nat) : Expr :=
  Expr.mk Kind.plain Ty.concrete ⟨false, true⟩ Option.none i []

/-- An unreachable-typed trapping instruction. -/
def unreachableNode (i : Nat) : Expr :=
  Expr.mk Kind.plain Ty.unreachable ⟨false, true⟩ Option.none i []

/-- Sample block with a side-effecting call between two pure constants. -/
def sampleBlock : Expr :=
  Expr.mk Kind.blockK Ty.none noEffects Option.none 1
    [pureConst 2, sideCall 3, pureConst 4]

/-- Sample if node with a pure condition, an effectful arm and a pure arm. -/
def sampleIf : Expr :=
  Expr.mk Kind.ifK Ty.concrete noEffects Option.none 5
    [pureConst 6, sideCall 7, pureConst 8]

/-- Sample if node of type none (for instance an if with no else whose arms
produce no value). -/
def sampleIfNone : Expr :=
  Expr.mk Kind.ifK Ty.none noEffects Option.none 10 [pureConst 11, pureConst 12]

/-- Sample concrete-typed if node with an own unremovable effect. -/
def sampleIfConcrete : Expr :=
  Expr.mk Kind.ifK Ty.concrete ⟨true, false⟩ Option.none 14 [pureConst 15]

/-- Sample concrete-typed node whose only shallow effect is a possible trap
and which has a side-effecting child. -/
def sampleTrapParent : Expr :=
  Expr.mk Kind.plain Ty.concrete ⟨false, true⟩ Option.none 17 [sideCall 18]

/-- Sample block of pure children only. -/
def samplePureBlock : Expr :=
  Expr.mk Kind.blockK Ty.none noEffects Option.none 20
    [pureConst 21, pureConst 22]

/-- Sample block declaring a branch-target name, with a pure child. -/
def sampleNamedBlock : Expr :=
  Expr.mk Kind.blockK Ty.none noEffects (Option.some 0) 24 [pureConst 25]

/-- Sample effect-free block holding one side-effecting call. -/
def sampleBlockWithCall : Expr :=
  Expr.mk Kind.blockK Ty.none noEffects Option.none 27 [sideCall 28]

/-- Sample block holding a child whose only effect is a possible trap. -/
def sampleTrapChildBlock : Expr :=
  Expr.mk Kind.blockK Ty.none noEffects Option.none 33 [trapNode 34]

theorem union_hasUnrem (a b : Effects) :
    (Effects.union a b).hasUnremovableSideEffects
      = (a.hasUnremovableSideEffects || b.hasUnremovableSideEffects) := by
  obtain ⟨x, y⟩ := a
  obtain ⟨z, w⟩ := b
  cases x <;> cases y <;> cases z <;> cases w <;> rfl

theorem EffectAnalyzer_mk (k t ef n i cs) :
    EffectAnalyzer (Expr.mk k t ef n i cs)
      = Effects.union ef (effectsOfList cs) := by
  simp [EffectAnalyzer]

theorem effectsOfList_nil : effectsOfList [] = noEffects := by
  simp [effectsOfList]

theorem effectsOfList_cons (c cs) :
    effectsOfList (c :: cs)
      = Effects.union (EffectAnalyzer c) (effectsOfList cs) := by
  simp [effectsOfList]

theorem obsSide_mk (k t ef n i cs) :
    obsSide (Expr.mk k t ef n i cs)
      = obsSideList cs ++ (if ef.other then [i] else []) := by
  simp [obsSide]

theorem obsSideList_nil : obsSideList [] = [] := by
  simp [obsSideList]

theorem obsSideList_cons (c cs) :
    obsSideList (c :: cs) = obsSide c ++ obsSideList cs := by
  simp [obsSideList]

theorem obsFull_mk (k t ef n i cs) :
    obsFull (Expr.mk k t ef n i cs)
      = obsFullList cs ++ (if ef.other || ef.trap then [i] else []) := by
  simp [obsFull]

theorem obsFullList_nil : obsFullList [] = [] := by
  simp [obsFullList]

theorem obsFullList_cons (c cs) :
    obsFullList (c :: cs) = obsFull c ++ obsFullList cs := by
  simp [obsFullList]

theorem obsSideList_append (a b : List Expr) :
    obsSideList (a ++ b) = obsSideList a ++ obsSideList b := by
  induction a with
  | nil => simp [obsSideList_nil]
  | cons c cs ih => simp [obsSideList_cons, ih]

theorem obsFullList_append (a b : List Expr) :
    obsFullList (a ++ b) = obsFullList a ++ obsFullList b := by
  induction a with
  | nil => simp [obsFullList_nil]
  | cons c cs ih => simp [obsFullList_cons, ih]

mutual

theorem obsSide_nil_of_removable : ∀ e : Expr,
    (EffectAnalyzer e).hasUnremovableSideEffects = false → obsSide e = []
  | Expr.mk k t ef n i cs => by
    intro h
    rw [EffectAnalyzer_mk, union_hasUnrem, Bool.or_eq_false_iff] at h
    have hef : ef.other = false := by
      have := h.1
      simp [Effects.hasUnremovableSideEffects, Bool.or_eq_false_iff] at this
      exact this.1
    rw [obsSide_mk, obsSideList_nil_of_removable cs h.2, hef]
    simp

theorem obsSideList_nil_of_removable : ∀ l : List Expr,
    (effectsOfList l).hasUnremovableSideEffects = false → obsSideList l = []
  | [] => by intro h; exact obsSideList_nil
  | c :: cs => by
    intro h
    rw [effectsOfList_cons, union_hasUnrem, Bool.or_eq_false_iff] at h
    rw [obsSideList_cons, obsSide_nil_of_removable c h.1,
      obsSideList_nil_of_removable cs h.2]
    simp

end

mutual

theorem obsFull_nil_of_removable : ∀ e : Expr,
    (EffectAnalyzer e).hasUnremovableSideEffects = false → obsFull e = []
  | Expr.mk k t ef n i cs => by
    intro h
    rw [EffectAnalyzer_mk, union_hasUnrem, Bool.or_eq_false_iff] at h
    have hef : (ef.other || ef.trap) = false := h.1
    rw [obsFull_mk, obsFullList_nil_of_removable cs h.2, hef]
    simp

theorem obsFullList_nil_of_removable : ∀ l : List Expr,
    (effectsOfList l).hasUnremovableSideEffects = false → obsFullList l = []
  | [] => by intro h; exact obsFullList_nil
  | c :: cs => by
    intro h
    rw [effectsOfList_cons, union_hasUnrem, Bool.or_eq_false_iff] at h
    rw [obsFullList_cons, obsFull_nil_of_removable c h.1,
      obsFullList_nil_of_removable cs h.2]
    simp

end

theorem obsSide_makeDrop (c : Expr) : obsSide (makeDrop c) = obsSide c := by
  simp [makeDrop, obsSide_mk, obsSideList_cons, obsSideList_nil, noEffects]

theorem obsFull_makeDrop (c : Expr) : obsFull (makeDrop c) = obsFull c := by
  simp [makeDrop, obsFull_mk, obsFullList_cons, obsFullList_nil, noEffects]

theorem obsSide_makeBlock (l : List Expr) :
    obsSide (makeBlock l) = obsSideList l := by
  simp [makeBlock, obsSide_mk, noEffects]

theorem obsFull_makeBlock (l : List Expr) :
    obsFull (makeBlock l) = obsFullList l := by
  simp [makeBlock, obsFull_mk, noEffects]

theorem obsSideList_droppedContents (cs : List Expr) :
    obsSideList (droppedContents cs) = obsSideList cs := by
  induction cs with
  | nil => simp [droppedContents]
  | cons c rest ih =>
    by_cases hc : (EffectAnalyzer c).hasUnremovableSideEffects = false
    · rw [droppedContents, if_pos hc, ih, obsSideList_cons,
        obsSide_nil_of_removable c hc]
      simp
    · rw [droppedContents, if_neg hc]
      by_cases ht : c.ty.isConcrete
      · rw [if_pos ht, obsSideList_cons, obsSide_makeDrop, ih,
          obsSideList_cons]
      · rw [if_neg ht, obsSideList_cons, ih, obsSideList_cons]

theorem obsFullList_droppedContents (cs : List Expr) :
    obsFullList (droppedContents cs) = obsFullList cs := by
  induction cs with
  | nil => simp [droppedContents]
  | cons c rest ih =>
    by_cases hc : (EffectAnalyzer c).hasUnremovableSideEffects = false
    · rw [droppedContents, if_pos hc, ih, obsFullList_cons,
        obsFull_nil_of_removable c hc]
      simp
    · rw [droppedContents, if_neg hc]
      by_cases ht : c.ty.isConcrete
      · rw [if_pos ht, obsFullList_cons, obsFull_makeDrop, ih,
          obsFullList_cons]
      · rw [if_neg ht, obsFullList_cons, ih, obsFullList_cons]

theorem getDroppedChildrenAndAppend_eq (curr last : Expr) :
    (droppedContents (ChildIterator curr) = [] ∧
      getDroppedChildrenAndAppend curr last = last) ∨
    (droppedContents (ChildIterator curr) ≠ [] ∧
      getDroppedChildrenAndAppend curr last
        = makeBlock (droppedContents (ChildIterator curr) ++ [last])) := by
  by_cases h : droppedContents (ChildIterator curr) = []
  · left
    refine ⟨h, ?_⟩
    unfold getDroppedChildrenAndAppend
    rw [h]
    simp
  · right
    refine ⟨h, ?_⟩
    unfold getDroppedChildrenAndAppend
    have hlen : (droppedContents (ChildIterator curr) ++ [last]).length ≠ 1 := by
      rw [List.length_append]
      have hpos : 0 < (droppedContents (ChildIterator curr)).length :=
        List.length_pos.mpr h
      simp only [List.length_singleton]
      omega
    simp only [hlen, if_false]

theorem getDroppedUnconditional_def (curr last : Expr) :
    getDroppedUnconditionalChildrenAndAppend curr last
      = if (adjustEffects last (ShallowEffectAnalyzer curr)).hasUnremovableSideEffects
            || curr.isIf || curr.isTry || curr.isPop
            || (getDefinedName curr).isSome then
          makeSequence (makeDrop curr) last
        else
          getDroppedChildrenAndAppend curr last := rfl

theorem adjustEffects_other (last : Expr) (e : Effects) :
    (adjustEffects last e).other = e.other := by
  unfold adjustEffects
  by_cases h : last.ty = Ty.unreachable
  · rw [if_pos h]
  · rw [if_neg h]

theorem adjustEffects_of_not_unreachable (last : Expr) (e : Effects)
    (h : last.ty ≠ Ty.unreachable) : adjustEffects last e = e := by
  unfold adjustEffects
  rw [if_neg h]

theorem obsSide_expand (e : Expr) :
    obsSide e = obsSideList (ChildIterator e)
      ++ (if (ShallowEffectAnalyzer e).other then [e.ident] else []) := by
  cases e
  rw [obsSide_mk]
  rfl

theorem obsFull_expand (e : Expr) :
    obsFull e = obsFullList (ChildIterator e)
      ++ (if (ShallowEffectAnalyzer e).other || (ShallowEffectAnalyzer e).trap
          then [e.ident] else []) := by
  cases e
  rw [obsFull_mk]
  rfl

/-- C1.  Soundness of `getDroppedUnconditionalChildrenAndAppend`: the
replacement performs exactly the unremovable side effects the original node
would have performed, in order, followed by the trailing expression's
behavior — children the effect analyzer proves discardable contribute no
observable event, so nothing is lost and nothing new is introduced.
Counting possible traps as events as well, the same equality holds whenever
the trailing expression's type is not unreachable (when it is unreachable,
the source deliberately suppresses the node's own trap, which the
replacement's trailing unreachable code subsumes). -/
theorem dropPreservingEffects_sound (curr last : Expr) :
    obsSide (getDroppedUnconditionalChildrenAndAppend curr last)
      = obsSide curr ++ obsSide last ∧
    (last.ty ≠ Ty.unreachable →
      obsFull (getDroppedUnconditionalChildrenAndAppend curr last)
        = obsFull curr ++ obsFull last) := by
  rw [getDroppedUnconditional_def]
  by_cases hb : ((adjustEffects last (ShallowEffectAnalyzer curr)).hasUnremovableSideEffects
      || curr.isIf || curr.isTry || curr.isPop
      || (getDefinedName curr).isSome) = true
  · rw [if_pos hb]
    constructor
    · rw [makeSequence, obsSide_makeBlock, obsSideList_cons, obsSideList_cons,
        obsSideList_nil, obsSide_makeDrop]
      simp
    · intro _
      rw [makeSequence, obsFull_makeBlock, obsFullList_cons, obsFullList_cons,
        obsFullList_nil, obsFull_makeDrop]
      simp
  · rw [if_neg hb]
    have hcond : (adjustEffects last (ShallowEffectAnalyzer curr)).hasUnremovableSideEffects = false := by
      revert hb
      cases (adjustEffects last (ShallowEffectAnalyzer curr)).hasUnremovableSideEffects <;> simp
    have hother : (ShallowEffectAnalyzer curr).other = false := by
      have h1 : (adjustEffects last (ShallowEffectAnalyzer curr)).other = false := by
        revert hcond
        unfold Effects.hasUnremovableSideEffects
        cases (adjustEffects last (ShallowEffectAnalyzer curr)).other <;> simp
      rw [adjustEffects_other] at h1
      exact h1
    rcases getDroppedChildrenAndAppend_eq curr last with ⟨hnil, hout⟩ | ⟨_, hout⟩
    · have hcs : obsSideList (ChildIterator curr) = [] := by
        rw [← obsSideList_droppedContents, hnil, obsSideList_nil]
      have hcsf : obsFullList (ChildIterator curr) = [] := by
        rw [← obsFullList_droppedContents, hnil, obsFullList_nil]
      constructor
      · rw [hout, obsSide_expand curr, hcs, hother]
        simp
      · intro hlast
        have heq : adjustEffects last (ShallowEffectAnalyzer curr)
            = ShallowEffectAnalyzer curr :=
          adjustEffects_of_not_unreachable last _ hlast
        rw [heq] at hcond
        have hor : ((ShallowEffectAnalyzer curr).other
            || (ShallowEffectAnalyzer curr).trap) = false := hcond
        rw [hout, obsFull_expand curr, hcsf, hor]
        simp
    · constructor
      · rw [hout, obsSide_makeBlock, obsSideList_append,
          obsSideList_droppedContents, obsSideList_cons, obsSideList_nil,
          obsSide_expand curr, hother]
        simp
      · intro hlast
        have heq : adjustEffects last (ShallowEffectAnalyzer curr)
            = ShallowEffectAnalyzer curr :=
          adjustEffects_of_not_unreachable last _ hlast
        rw [heq] at hcond
        have hor : ((ShallowEffectAnalyzer curr).other
            || (ShallowEffectAnalyzer curr).trap) = false := hcond
        rw [hout, obsFull_makeBlock, obsFullList_append,
          obsFullList_droppedContents, obsFullList_cons, obsFullList_nil,
          obsFull_expand curr, hor]
        simp

theorem droppedContents_nil_of_all_removable (cs : List Expr)
    (h : ∀ c ∈ cs, (EffectAnalyzer c).hasUnremovableSideEffects = false) :
    droppedContents cs = [] := by
  induction cs with
  | nil => simp [droppedContents]
  | cons c rest ih =>
    rw [droppedContents, if_pos (h c (List.mem_cons_self c rest))]
    exact ih (fun x hx => h x (List.mem_cons_of_mem c hx))

/-- C2.  Conditional retention: an if/else node is never split; the result is
exactly the two-element sequence `[drop curr, last]`, with the if node (and
therefore all of its children) embedded unchanged. -/
theorem if_retained_whole (curr last : Expr) (h : curr.isIf = true) :
    getDroppedUnconditionalChildrenAndAppend curr last
      = makeSequence (makeDrop curr) last ∧
    (getDroppedUnconditionalChildrenAndAppend curr last).children
      = [makeDrop curr, last] ∧
    (makeDrop curr).children = [curr] := by
  have hres : getDroppedUnconditionalChildrenAndAppend curr last
      = makeSequence (makeDrop curr) last := by
    rw [getDroppedUnconditional_def, h]
    simp
  refine ⟨hres, ?_, ?_⟩
  · rw [hres]
    simp [makeSequence, makeBlock, Expr.children]
  · simp [makeDrop, Expr.children]

theorem if_retained_whole_witness :
    sampleIf.isIf = true ∧
    getDroppedUnconditionalChildrenAndAppend sampleIf (pureConst 9)
      = makeSequence (makeDrop sampleIf) (pureConst 9) :=
  ⟨by decide, (if_retained_whole sampleIf (pureConst 9) (by decide)).1⟩

/-- C4.  Trap suppression: when the trailing expression's type is
unreachable the may-trap component of the node's shallow verdict is cleared
before testing unremovability, so a node whose only shallow effect is a
possible trap (and which is not an if, try or pop and declares no
branch-target name) is split into its children rather than retained
whole. -/
theorem trap_suppression (curr last : Expr)
    (hlast : last.ty = Ty.unreachable)
    (hother : (ShallowEffectAnalyzer curr).other = false)
    (hif : curr.isIf = false) (htry : curr.isTry = false)
    (hpop : curr.isPop = false)
    (hname : (getDefinedName curr).isSome = false) :
    (adjustEffects last (ShallowEffectAnalyzer curr)).trap = false ∧
    getDroppedUnconditionalChildrenAndAppend curr last
      = getDroppedChildrenAndAppend curr last := by
  have hadj : adjustEffects last (ShallowEffectAnalyzer curr)
      = ⟨(ShallowEffectAnalyzer curr).other, false⟩ := by
    unfold adjustEffects
    rw [if_pos hlast]
  constructor
  · rw [hadj]
  · rw [getDroppedUnconditional_def, hadj, hif, htry, hpop, hname, hother]
    simp [Effects.hasUnremovableSideEffects]

theorem trap_suppression_witness :
    (ShallowEffectAnalyzer sampleTrapParent).trap = true ∧
    getDroppedUnconditionalChildrenAndAppend sampleTrapParent (unreachableNode 19)
      = getDroppedChildrenAndAppend sampleTrapParent (unreachableNode 19) :=
  ⟨by decide,
    (trap_suppression sampleTrapParent (unreachableNode 19) (by decide)
      (by decide) (by decide) (by decide) (by decide) (by decide)).2⟩

/-- C5.  Collapse: when every direct child of the node lacks unremovable
deep side effects, `getDroppedChildrenAndAppend` returns exactly the
trailing expression, with no wrapping block. -/
theorem collapse_to_last (curr last : Expr)
    (h : ∀ c ∈ ChildIterator curr,
      (EffectAnalyzer c).hasUnremovableSideEffects = false) :
    getDroppedChildrenAndAppend curr last = last := by
  have hnil : droppedContents (ChildIterator curr) = [] :=
    droppedContents_nil_of_all_removable _ h
  rcases getDroppedChildrenAndAppend_eq curr last with ⟨_, hout⟩ | ⟨hne, _⟩
  · exact hout
  · exact absurd hnil hne

theorem collapse_to_last_witness :
    getDroppedChildrenAndAppend samplePureBlock (pureConst 23) = pureConst 23 := by
  refine collapse_to_last samplePureBlock (pureConst 23) ?_
  intro c hc
  simp only [samplePureBlock, ChildIterator, Expr.children, List.mem_cons,
    List.not_mem_nil, or_false] at hc
  rcases hc with rfl | rfl <;>
    simp [pureConst, EffectAnalyzer_mk, effectsOfList_nil, union_hasUnrem,
      Effects.hasUnremovableSideEffects, Effects.union, noEffects]

/-- C6.  Branch-target retention: a node that declares a branch-target name
is kept whole as the two-element sequence `[drop curr, last]`, never split
into its children, even when those children are effect-free. -/
theorem branch_target_retained (curr last : Expr)
    (h : (getDefinedName curr).isSome = true) :
    getDroppedUnconditionalChildrenAndAppend curr last
      = makeSequence (makeDrop curr) last ∧
    (getDroppedUnconditionalChildrenAndAppend curr last).children
      = [makeDrop curr, last] ∧
    (makeDrop curr).children = [curr] := by
  have hres : getDroppedUnconditionalChildrenAndAppend curr last
      = makeSequence (makeDrop curr) last := by
    rw [getDroppedUnconditional_def, h]
    simp
  refine ⟨hres, ?_, ?_⟩
  · rw [hres]
    simp [makeSequence, makeBlock, Expr.children]
  · simp [makeDrop, Expr.children]

theorem branch_target_retained_witness :
    (∀ c ∈ ChildIterator sampleNamedBlock,
      (EffectAnalyzer c).hasUnremovableSideEffects = false) ∧
    getDroppedUnconditionalChildrenAndAppend sampleNamedBlock (pureConst 26)
      = makeSequence (makeDrop sampleNamedBlock) (pureConst 26) := by
  constructor
  · intro c hc
    simp only [sampleNamedBlock, ChildIterator, Expr.children, List.mem_cons,
      List.not_mem_nil, or_false] at hc
    subst hc
    simp [pureConst, EffectAnalyzer_mk, effectsOfList_nil, union_hasUnrem,
      Effects.hasUnremovableSideEffects, Effects.union, noEffects]
  · exact (branch_target_retained sampleNamedBlock (pureConst 26) (by decide)).1

theorem droppedContents_eq_filterMap (cs : List Expr) :
    droppedContents cs = cs.filterMap (fun child =>
      if (EffectAnalyzer child).hasUnremovableSideEffects then
        Option.some (if child.ty.isConcrete then makeDrop child else child)
      else Option.none) := by
  induction cs with
  | nil => simp [droppedContents]
  | cons c rest ih =>
    by_cases hc : (EffectAnalyzer c).hasUnremovableSideEffects = true
    · rw [droppedContents]
      rw [if_neg (by simp [hc])]
      by_cases ht : c.ty.isConcrete = true
      · rw [if_pos ht, List.filterMap_cons, if_pos hc, if_pos ht, ih]
      · rw [if_neg ht, List.filterMap_cons, if_pos hc,
          if_neg ht, ih]
    · have hc' : (EffectAnalyzer c).hasUnremovableSideEffects = false := by
        revert hc
        cases (EffectAnalyzer c).hasUnremovableSideEffects <;> simp
      rw [droppedContents, if_pos hc', List.filterMap_cons, if_neg hc, ih]

theorem droppedContents_eq_map_filter (cs : List Expr) :
    droppedContents cs
      = (cs.filter
          (fun c => (EffectAnalyzer c).hasUnremovableSideEffects)).map
          wrapChild := by
  induction cs with
  | nil => simp [droppedContents]
  | cons c rest ih =>
    by_cases hc : (EffectAnalyzer c).hasUnremovableSideEffects = true
    · rw [droppedContents]
      rw [if_neg (by simp [hc])]
      have hfil : List.filter
            (fun x => (EffectAnalyzer x).hasUnremovableSideEffects) (c :: rest)
          = c :: List.filter
              (fun x => (EffectAnalyzer x).hasUnremovableSideEffects) rest :=
        List.filter_cons_of_pos hc
      rw [hfil, List.map_cons, ← ih]
      by_cases ht : c.ty.isConcrete = true
      · rw [if_pos ht, wrapChild, if_pos ht]
      · rw [if_neg ht, wrapChild, if_neg ht]
    · have hc' : (EffectAnalyzer c).hasUnremovableSideEffects = false := by
        revert hc
        cases (EffectAnalyzer c).hasUnremovableSideEffects <;> simp
      have hfil : List.filter
            (fun x => (EffectAnalyzer x).hasUnremovableSideEffects) (c :: rest)
          = List.filter
              (fun x => (EffectAnalyzer x).hasUnremovableSideEffects) rest :=
        List.filter_cons_of_neg (by simp [hc'])
      rw [droppedContents, if_pos hc', hfil, ih]

/-- C7.  Per-child discard/wrap rule: in `getDroppedChildrenAndAppend` a
direct child is omitted exactly when its deep verdict shows no unremovable
side effects, every retained child appears wrapped in a drop exactly when
its type is concrete (as-is otherwise), and the output is the trailing
expression alone when nothing is retained, else the block of the retained
wrapped children followed by the trailing expression. -/
theorem per_child_discard_wrap (curr last : Expr) :
    ((ChildIterator curr).filterMap (fun child =>
        if (EffectAnalyzer child).hasUnremovableSideEffects then
          Option.some (if child.ty.isConcrete then makeDrop child else child)
        else Option.none) = [] ∧
      getDroppedChildrenAndAppend curr last = last) ∨
    (getDroppedChildrenAndAppend curr last).children
      = (ChildIterator curr).filterMap (fun child =>
          if (EffectAnalyzer child).hasUnremovableSideEffects then
            Option.some (if child.ty.isConcrete then makeDrop child else child)
          else Option.none) ++ [last] := by
  rcases getDroppedChildrenAndAppend_eq curr last with ⟨hnil, hout⟩ | ⟨_, hout⟩
  · left
    rw [← droppedContents_eq_filterMap]
    exact ⟨hnil, hout⟩
  · right
    rw [hout, ← droppedContents_eq_filterMap]
    simp [makeBlock, Expr.children]

/-- C8.  No reordering: the retained children form a sublist of the original
child list (hence appear in the original left-to-right order), the output of
`getDroppedChildrenAndAppend` is those children, wrapped, in order, followed
by the trailing expression last; and `getDroppedUnconditionalChildrenAndAppend`
either keeps the whole node before the trailing expression or delegates to
that same output. -/
theorem no_reordering (curr last : Expr) :
    (keptChildren curr).Sublist (ChildIterator curr) ∧
    (getDroppedChildrenAndAppend curr last = last ∨
      (getDroppedChildrenAndAppend curr last).children
        = (keptChildren curr).map wrapChild ++ [last]) ∧
    ((getDroppedUnconditionalChildrenAndAppend curr last).children
        = [makeDrop curr, last] ∨
      getDroppedUnconditionalChildrenAndAppend curr last
        = getDroppedChildrenAndAppend curr last) := by
  refine ⟨List.filter_sublist _, ?_, ?_⟩
  · rcases getDroppedChildrenAndAppend_eq curr last with ⟨_, hout⟩ | ⟨_, hout⟩
    · left
      exact hout
    · right
      rw [hout, keptChildren, ← droppedContents_eq_map_filter]
      simp [makeBlock, Expr.children]
  · rw [getDroppedUnconditional_def]
    by_cases hb : ((adjustEffects last (ShallowEffectAnalyzer curr)).hasUnremovableSideEffects
        || curr.isIf || curr.isTry || curr.isPop
        || (getDefinedName curr).isSome) = true
    · left
      rw [if_pos hb]
      simp [makeSequence, makeBlock, Expr.children]
    · right
      rw [if_neg hb]

theorem mem_droppedContents_of_concrete (cs : List Expr) (child : Expr)
    (hmem : child ∈ cs)
    (heff : (EffectAnalyzer child).hasUnremovableSideEffects = true)
    (hty : child.ty.isConcrete = true) :
    makeDrop child ∈ droppedContents cs := by
  induction cs with
  | nil => cases hmem
  | cons c rest ih =>
    rcases List.mem_cons.mp hmem with rfl | htail
    · rw [droppedContents, if_neg (by simp [heff]), if_pos hty]
      exact List.mem_cons_self _ _
    · rw [droppedContents]
      by_cases hc : (EffectAnalyzer c).hasUnremovableSideEffects = false
      · rw [if_pos hc]
        exact ih htail
      · rw [if_neg hc]
        by_cases ht : c.ty.isConcrete = true
        · rw [if_pos ht]
          exact List.mem_cons_of_mem _ (ih htail)
        · rw [if_neg ht]
          exact List.mem_cons_of_mem _ (ih htail)

/-- C10.  Trap suppression applies only to the top-level node: in
`getDroppedChildrenAndAppend` each child's deep verdict is used unmodified,
so a direct child whose only unremovable effect is a possible trap is still
retained, wrapped in a drop, even when the trailing expression's type is
unreachable. -/
theorem child_trap_still_retained (curr last child : Expr)
    (hlast : last.ty = Ty.unreachable)
    (hmem : child ∈ ChildIterator curr)
    (hother : (EffectAnalyzer child).other = false)
    (htrap : (EffectAnalyzer child).trap = true)
    (hty : child.ty = Ty.concrete) :
    makeDrop child ∈ (getDroppedChildrenAndAppend curr last).children := by
  have heff : (EffectAnalyzer child).hasUnremovableSideEffects = true := by
    rw [Effects.hasUnremovableSideEffects, hother, htrap]
    rfl
  have htyc : child.ty.isConcrete = true := by
    rw [hty]
    rfl
  have hin : makeDrop child ∈ droppedContents (ChildIterator curr) :=
    mem_droppedContents_of_concrete _ _ hmem heff htyc
  rcases getDroppedChildrenAndAppend_eq curr last with ⟨hnil, _⟩ | ⟨_, hout⟩
  · rw [hnil] at hin
    cases hin
  · rw [hout]
    simp only [makeBlock, Expr.children]
    exact List.mem_append_left _ hin

theorem wellDropped_mk (k t ef n i cs) :
    wellDropped (Expr.mk k t ef n i cs)
      = ((if k = Kind.dropK then cs.all (fun c => c.ty.isConcrete) else true)
          && wellDroppedList cs) := by
  simp [wellDropped]

theorem wellDroppedList_nil : wellDroppedList [] = true := by
  simp [wellDroppedList]

theorem wellDroppedList_cons (c cs) :
    wellDroppedList (c :: cs) = (wellDropped c && wellDroppedList cs) := by
  simp [wellDroppedList]

theorem wellDroppedList_append (a b : List Expr) :
    wellDroppedList (a ++ b) = (wellDroppedList a && wellDroppedList b) := by
  induction a with
  | nil => simp [wellDroppedList_nil]
  | cons c cs ih => simp [wellDroppedList_cons, ih, Bool.and_assoc]

theorem wellDropped_makeBlock (l : List Expr) :
    wellDropped (makeBlock l) = wellDroppedList l := by
  rw [makeBlock, wellDropped_mk]
  simp

theorem wellDropped_makeDrop (c : Expr) :
    wellDropped (makeDrop c) = (c.ty.isConcrete && wellDropped c) := by
  rw [makeDrop, wellDropped_mk]
  simp [wellDroppedList_cons, wellDroppedList_nil]

theorem wellDroppedList_children (e : Expr) (h : wellDropped e = true) :
    wellDroppedList (ChildIterator e) = true := by
  cases e with
  | mk k t ef n i cs =>
    rw [wellDropped_mk, Bool.and_eq_true] at h
    exact h.2

theorem wellDroppedList_droppedContents (cs : List Expr)
    (h : wellDroppedList cs = true) :
    wellDroppedList (droppedContents cs) = true := by
  induction cs with
  | nil => simp [droppedContents, wellDroppedList_nil]
  | cons c rest ih =>
    rw [wellDroppedList_cons, Bool.and_eq_true] at h
    rw [droppedContents]
    by_cases hc : (EffectAnalyzer c).hasUnremovableSideEffects = false
    · rw [if_pos hc]
      exact ih h.2
    · rw [if_neg hc]
      by_cases ht : c.ty.isConcrete = true
      · rw [if_pos ht, wellDroppedList_cons, wellDropped_makeDrop, ht, h.1,
          ih h.2]
        rfl
      · rw [if_neg ht, wellDroppedList_cons, h.1, ih h.2]
        rfl

/-- C3 counterexample: the claim that no expression of type none or
unreachable is ever placed inside a drop wrapper fails on the retain-whole
branch of `getDroppedUnconditionalChildrenAndAppend`: a none-typed if node,
with drop-invariant-respecting inputs, is itself wrapped in a freshly built
drop, so the output violates the invariant. -/
theorem drop_invariant_counterexample :
    wellDropped sampleIfNone = true ∧ wellDropped (pureConst 13) = true ∧
    wellDropped
      (getDroppedUnconditionalChildrenAndAppend sampleIfNone (pureConst 13))
      = false := by
  refine ⟨?_, ?_, ?_⟩
  · simp [sampleIfNone, pureConst, wellDropped_mk, wellDroppedList_cons,
      wellDroppedList_nil]
  · simp [pureConst, wellDropped_mk, wellDroppedList_nil]
  · rw [getDroppedUnconditional_def, if_pos (by decide)]
    rw [makeSequence, wellDropped_makeBlock, wellDroppedList_cons,
      wellDropped_makeDrop]
    simp [sampleIfNone, Expr.ty, Ty.isConcrete]

/-- C3 amended.  Drop-invariant preservation as the code actually has it:
drops created around retained children always wrap concrete-typed children,
so `getDroppedChildrenAndAppend` preserves the invariant unconditionally;
the retain-whole branch of `getDroppedUnconditionalChildrenAndAppend`,
however, wraps the whole node in a drop regardless of its type, so that
entry point preserves the invariant when the input node's type is
concrete. -/
theorem drop_invariant_amended (curr last : Expr)
    (hcurr : wellDropped curr = true) (hlast : wellDropped last = true) :
    wellDropped (getDroppedChildrenAndAppend curr last) = true ∧
    (curr.ty.isConcrete = true →
      wellDropped (getDroppedUnconditionalChildrenAndAppend curr last)
        = true) := by
  have hpart1 : wellDropped (getDroppedChildrenAndAppend curr last) = true := by
    rcases getDroppedChildrenAndAppend_eq curr last with ⟨_, hout⟩ | ⟨_, hout⟩
    · rw [hout]
      exact hlast
    · rw [hout, wellDropped_makeBlock, wellDroppedList_append,
        wellDroppedList_droppedContents _ (wellDroppedList_children curr hcurr),
        wellDroppedList_cons, hlast, wellDroppedList_nil]
      rfl
  refine ⟨hpart1, ?_⟩
  intro hconc
  rw [getDroppedUnconditional_def]
  by_cases hb : ((adjustEffects last (ShallowEffectAnalyzer curr)).hasUnremovableSideEffects
      || curr.isIf || curr.isTry || curr.isPop
      || (getDefinedName curr).isSome) = true
  · rw [if_pos hb, makeSequence, wellDropped_makeBlock, wellDroppedList_cons,
      wellDropped_makeDrop, hconc, hcurr, wellDroppedList_cons, hlast,
      wellDroppedList_nil]
    rfl
  · rw [if_neg hb]
    exact hpart1

theorem drop_invariant_amended_witness :
    wellDropped
      (getDroppedUnconditionalChildrenAndAppend sampleIfConcrete (pureConst 16))
      = true :=
  (drop_invariant_amended sampleIfConcrete (pureConst 16)
    (by simp [sampleIfConcrete, pureConst, wellDropped_mk, wellDroppedList_cons,
      wellDroppedList_nil])
    (by simp [pureConst, wellDropped_mk, wellDroppedList_nil])).2 (by decide)

theorem getDroppedUnconditionalDeepCheck_def (curr last : Expr) :
    getDroppedUnconditionalChildrenAndAppendDeepCheck curr last
      = if (adjustEffects last (EffectAnalyzer curr)).hasUnremovableSideEffects
            || curr.isIf || curr.isTry || curr.isPop
            || (getDefinedName curr).isSome then
          makeSequence (makeDrop curr) last
        else
          getDroppedChildrenAndAppend curr last := rfl

theorem shallow_adj_le_deep_adj (curr last : Expr)
    (h : (adjustEffects last (ShallowEffectAnalyzer curr)).hasUnremovableSideEffects
        = true) :
    (adjustEffects last (EffectAnalyzer curr)).hasUnremovableSideEffects
      = true := by
  cases curr with
  | mk k t ef n i cs =>
    have hsh : ShallowEffectAnalyzer (Expr.mk k t ef n i cs) = ef := rfl
    rw [hsh] at h
    rw [EffectAnalyzer_mk]
    unfold adjustEffects at h ⊢
    by_cases hl : last.ty = Ty.unreachable
    · rw [if_pos hl] at h ⊢
      rw [Effects.hasUnremovableSideEffects] at h ⊢
      simp only [Bool.or_false] at h ⊢
      rw [Effects.union]
      simp only [h]
      rfl
    · rw [if_neg hl] at h ⊢
      rw [union_hasUnrem, h]
      rfl

/-- C9 counterexample: substituting the deep effect verdict for the shallow
one does change the result — on an effect-free block holding one
side-effecting call, the source function splits the block into its children
while the deep-check variant retains the block whole, and the two outputs
differ. -/
theorem shallow_vs_deep_counterexample :
    getDroppedUnconditionalChildrenAndAppendDeepCheck sampleBlockWithCall
        (pureConst 29)
      ≠ getDroppedUnconditionalChildrenAndAppend sampleBlockWithCall
        (pureConst 29) := by
  have hdeep : EffectAnalyzer sampleBlockWithCall = ⟨true, false⟩ := by
    simp [sampleBlockWithCall, sideCall, EffectAnalyzer_mk, effectsOfList_cons,
      effectsOfList_nil, Effects.union, noEffects]
  have h1 : getDroppedUnconditionalChildrenAndAppendDeepCheck
        sampleBlockWithCall (pureConst 29)
      = makeSequence (makeDrop sampleBlockWithCall) (pureConst 29) := by
    rw [getDroppedUnconditionalDeepCheck_def, hdeep]
    rw [if_pos (by decide)]
  have heff : EffectAnalyzer (sideCall 28) = ⟨true, false⟩ := by
    simp [sideCall, EffectAnalyzer_mk, effectsOfList_nil, Effects.union,
      noEffects]
  have h2 : getDroppedUnconditionalChildrenAndAppend sampleBlockWithCall
        (pureConst 29)
      = makeBlock [makeDrop (sideCall 28), pureConst 29] := by
    rw [getDroppedUnconditional_def, if_neg (by decide)]
    rw [getDroppedChildrenAndAppend]
    have hdc : droppedContents (ChildIterator sampleBlockWithCall)
        = [makeDrop (sideCall 28)] := by
      have hch : ChildIterator sampleBlockWithCall = [sideCall 28] := rfl
      rw [hch, droppedContents, if_neg (by rw [heff]; decide),
        if_pos (by decide), droppedContents]
    rw [hdc]
    rfl
  rw [h1, h2]
  simp only [makeSequence, makeBlock, makeDrop, sampleBlockWithCall, sideCall,
    pureConst, Expr.ty, ne_eq, Expr.mk.injEq]
  intro hcontra
  simp at hcontra

/-- C9 amended.  The retain-or-descend decision reads only the node's
shallow effect verdict; the deep verdict is at least as strong as the
shallow one, so substituting it could change the decision only from
descending into children to retaining the node whole: whenever the
(trap-adjusted) deep verdict shows no unremovable effects, the deep-check
variant and the source function return the same result. -/
theorem shallow_vs_deep_amended (curr last : Expr) :
    ((adjustEffects last (ShallowEffectAnalyzer curr)).hasUnremovableSideEffects
        = false ∨
      (adjustEffects last (EffectAnalyzer curr)).hasUnremovableSideEffects
        = true) ∧
    ((adjustEffects last (EffectAnalyzer curr)).hasUnremovableSideEffects
        = false →
      getDroppedUnconditionalChildrenAndAppendDeepCheck curr last
        = getDroppedUnconditionalChildrenAndAppend curr last) := by
  constructor
  · by_cases hs : (adjustEffects last (ShallowEffectAnalyzer curr)).hasUnremovableSideEffects = true
    · right
      exact shallow_adj_le_deep_adj curr last hs
    · left
      revert hs
      cases (adjustEffects last (ShallowEffectAnalyzer curr)).hasUnremovableSideEffects <;> simp
  · intro hdeep
    have hshallow : (adjustEffects last (ShallowEffectAnalyzer curr)).hasUnremovableSideEffects = false := by
      by_cases hs : (adjustEffects last (ShallowEffectAnalyzer curr)).hasUnremovableSideEffects = true
      · rw [shallow_adj_le_deep_adj curr last hs] at hdeep
        cases hdeep
      · revert hs
        cases (adjustEffects last (ShallowEffectAnalyzer curr)).hasUnremovableSideEffects <;> simp
    rw [getDroppedUnconditionalDeepCheck_def, getDroppedUnconditional_def,
      hdeep, hshallow]

theorem shallow_vs_deep_amended_witness :
    getDroppedUnconditionalChildrenAndAppendDeepCheck samplePureBlock
        (pureConst 36)
      = getDroppedUnconditionalChildrenAndAppend samplePureBlock
        (pureConst 36) :=
  (shallow_vs_deep_amended samplePureBlock (pureConst 36)).2
    (by
      have : EffectAnalyzer samplePureBlock = ⟨false, false⟩ := by
        simp [samplePureBlock, pureConst, EffectAnalyzer_mk, effectsOfList_cons,
          effectsOfList_nil, Effects.union, noEffects]
      rw [this]
      decide)

theorem dropPreservingEffects_sound_witness :
    obsFull (getDroppedUnconditionalChildrenAndAppend sampleBlock (pureConst 40))
      = obsFull sampleBlock ++ obsFull (pureConst 40) :=
  (dropPreservingEffects_sound sampleBlock (pureConst 40)).2 (by decide)

theorem child_trap_still_retained_witness :
    makeDrop (trapNode 34)
      ∈ (getDroppedChildrenAndAppend sampleTrapChildBlock
          (unreachableNode 35)).children :=
  child_trap_still_retained sampleTrapChildBlock (unreachableNode 35)
    (trapNode 34) (by decide)
    (by simp [sampleTrapChildBlock, ChildIterator, Expr.children])
    (by simp [trapNode, EffectAnalyzer_mk, effectsOfList_nil, Effects.union,
      noEffects])
    (by simp [trapNode, EffectAnalyzer_mk, effectsOfList_nil, Effects.union,
      noEffects])
    (by decide)

end DropIR
